import Mathlib

/-!
Verification of the `joiningdata/bam` BAM/BAI reader against its
natural-language specification.  The Go source is shallowly embedded:
machine integers become `Nat`/`Int` with explicit wrapping where overflow
can matter, byte slices become `List Nat`, Go maps become association
lists, and code that can panic returns `Option`.
-/

namespace Bam

/-- Truncation to an unsigned 32-bit value, modelling Go's `uint32(x)`
conversion and `uint32` arithmetic wrap-around. -/
def u32 (n : Nat) : Nat := n % 4294967296

/-- Go `uint64` subtraction `a - b`, which wraps modulo `2^64`. -/
def u64sub (a b : Nat) : Nat := (a + 18446744073709551616 - b % 18446744073709551616) % 18446744073709551616

/-- Two's-complement interpretation of the low 32 bits of an integer:
models Go's `int32(x)` conversion and the wrap-around of `int32` sums. -/
def wrap32 (x : Int) : Int := (x + 2147483648) % 4294967296 - 2147483648

/-- Go `int32(n)` for an unsigned 64-bit `n` (truncate, then reinterpret). -/
def int32OfU64 (n : Nat) : Int := wrap32 n

/-- Go `int64(n)` for an unsigned 64-bit `n` (reinterpret the bit pattern). -/
def i64OfU64 (n : Nat) : Int :=
  if n % 18446744073709551616 < 9223372036854775808 then (n % 18446744073709551616 : Int)
  else (n % 18446744073709551616 : Int) - 18446744073709551616

/-- Model of `(IndexReference).getBin` from the source: the single-leaf-bin
region-to-bin computation.  `beginPos`/`endPos` are the Go `uint64`
arguments; the `u64sub`/`u32` wrappers model the `endPos - 1` uint64
wrap-around and the `uint32` result conversions of the source. -/
def getBin (beginPos endPos : Nat) : Nat :=
  let e := u64sub endPos 1 >>> 14
  let b := beginPos >>> 14
  if b = e then u32 (((1 <<< 15) - 1) / 7 + u32 b)
  else if b >>> 3 = e >>> 3 then u32 (((1 <<< 12) - 1) / 7 + u32 (b >>> 3))
  else if b >>> 6 = e >>> 6 then u32 (((1 <<< 9) - 1) / 7 + u32 (b >>> 6))
  else if b >>> 9 = e >>> 9 then u32 (((1 <<< 6) - 1) / 7 + u32 (b >>> 9))
  else if b >>> 12 = e >>> 12 then u32 (((1 <<< 3) - 1) / 7 + u32 (b >>> 12))
  else 0

/-- The inclusive range `lo..hi` as a list (empty when `lo > hi`):
models one `for k := lo; k <= hi; k++ { append(res, uint32(k)) }` loop
of `getBins`, including the `uint32(k)` conversion. -/
def upRange (lo hi : Nat) : List Nat := (List.range' lo (hi + 1 - lo)).map u32

/-- Model of `(IndexReference).getBins` from the source.  The initial
`make([]uint32, 1, …)` yields one zero element, i.e. bin `0`.  Note the
source's level-9 loop bound: `for k := 9 + b>>9; k <= 1+(e>>9); k++`. -/
def getBins (beginPos endPos : Nat) : List Nat :=
  let e := u64sub endPos 1 >>> 14
  let b := beginPos >>> 14
  [0]
    ++ upRange (1 + b >>> 12) (1 + e >>> 12)
    ++ upRange (9 + b >>> 9) (1 + e >>> 9)
    ++ upRange (73 + b >>> 6) (73 + e >>> 6)
    ++ upRange (585 + b >>> 3) (585 + e >>> 3)
    ++ upRange (4681 + b) (4681 + e)

/-- The region-to-bin algorithm exactly as §4.4 of the spec words it
(narrowest level first, base offsets 4681, 585, 73, 9, 1, 0), stated with
plain natural-number arithmetic.  Used as the comparison point for the
refinement claim about `getBin`. -/
def reg2binSpec (beginPos endPos : Nat) : Nat :=
  let e := (endPos - 1) >>> 14
  let b := beginPos >>> 14
  if b = e then 4681 + b
  else if b >>> 3 = e >>> 3 then 585 + b >>> 3
  else if b >>> 6 = e >>> 6 then 73 + b >>> 6
  else if b >>> 9 = e >>> 9 then 9 + b >>> 9
  else if b >>> 12 = e >>> 12 then 1 + b >>> 12
  else 0

end Bam

namespace Bam

/-- Go `bytes.Equal` on byte slices: equal lengths and equal contents. -/
def bytesEqual (a b : List Nat) : Bool := a == b

/-- The 4-byte literal `[]byte{'B','A','M',1}` that `LoadIndex` compares
its 8-byte header buffer against. -/
def bamLiteral : List Nat := [66, 65, 77, 1]

/-- The magic-validation step of `LoadIndex`: the source reads 8 bytes
into `tmp` and then returns the "invalid index file" error precisely when
`bytes.Equal(tmp, []byte{'B','A','M',1})` holds. -/
def loadIndexRejects (tmp : List Nat) : Bool := bytesEqual tmp bamLiteral

/-- Little-endian 16-bit read at byte offset `i` (missing bytes read 0). -/
def readU16 (r : List Nat) (i : Nat) : Nat := r.getD i 0 + 256 * r.getD (i + 1) 0

/-- Little-endian 32-bit read at byte offset `i` (missing bytes read 0). -/
def readU32 (r : List Nat) (i : Nat) : Nat :=
  r.getD i 0 + 256 * r.getD (i + 1) 0 + 65536 * r.getD (i + 2) 0 + 16777216 * r.getD (i + 3) 0

/-- One decoded BAM alignment record (`bamAlignment` in the source).  The
auxiliary tag table is not modelled: no claim depends on it and it only
consumes bytes after the fields below. -/
structure BamAlignment where
  refID : Int
  pos : Int
  mapq : Nat
  bin : Nat
  cigarOpCount : Nat
  flag : Nat
  seqLen : Int
  nextRefID : Int
  nextPos : Int
  tlen : Int
  readName : List Nat
  cigarPacked : List Nat
  seqPacked : List Nat
  qual : List Nat
deriving Repr, DecidableEq

/-- Mask the low nibble of the final byte (`seqPacked[len-1] &= 0xF0`). -/
def maskLastNibble : List Nat → List Nat
  | [] => []
  | l => l.dropLast ++ [l.getLastD 0 &&& 0xF0]

/-- Model of `parseAlignment` from the source, minus the auxiliary-tag
loop.  Byte reads past the end of the record, and records whose decoded
`seq_length` is negative (both panic in Go while slicing), here read
zeroes / empty slices; no claim exercises those inputs. -/
def parseAlignment (r : List Nat) : BamAlignment :=
  let seqLen : Int := wrap32 (readU32 r 16)
  let readNameLen := r.getD 8 0
  let offs := 32 + readNameLen
  let cigarOpCount := readU16 r 12
  let offs2 := offs + 4 * cigarOpCount
  let nSeqBytes := ((1 + seqLen) / 2).toNat
  let seqPacked0 := (r.drop offs2).take nSeqBytes
  { refID := wrap32 (readU32 r 0)
    pos := wrap32 (readU32 r 4)
    mapq := r.getD 9 0
    bin := readU16 r 10
    cigarOpCount := cigarOpCount
    flag := readU16 r 14
    seqLen := seqLen
    nextRefID := wrap32 (readU32 r 20)
    nextPos := wrap32 (readU32 r 24)
    tlen := wrap32 (readU32 r 28)
    readName := (r.drop 32).take (readNameLen - 1)
    cigarPacked := (List.range cigarOpCount).map (fun i => readU32 r (offs + 4 * i))
    seqPacked := if seqLen % 2 == 1 then maskLastNibble seqPacked0 else seqPacked0
    qual := (r.drop (offs2 + nSeqBytes)).take seqLen.toNat }

/-- The 16-character IUPAC table `"=ACMGRSVTWYHKDBN"`. -/
def packmap : List Char := "=ACMGRSVTWYHKDBN".toList

/-- The nibble-expansion loop of `UnpackSequence`: two characters per
packed byte, upper nibble first. -/
def nibbleChars (packed : List Nat) : List Char :=
  packed.flatMap fun p => [packmap.getD ((p >>> 4) &&& 0xF) ' ', packmap.getD (p &&& 0xF) ' ']

/-- Model of `UnpackSequence` from the source.  After the expansion loop the code
unconditionally tests `r[len(r)-1] == '='`; on an empty input that index
is out of bounds and Go panics, modelled by `none`. -/
def UnpackSequence (packed : List Nat) : Option (List Char) :=
  let r := nibbleChars packed
  match r.getLast? with
  | none => none
  | some c => if c = '=' then some r.dropLast else some r

/-- The overlap test of `GetMap`/`noindexGetMap`:
`ba.pos+ba.tlen >= int32(beginPos) && ba.pos <= int32(endPos)`, with the
`int32` sum wrap-around and conversions made explicit. -/
def condGo (pos tlen : Int) (beginPos endPos : Nat) : Bool :=
  decide (int32OfU64 beginPos ≤ wrap32 (pos + tlen)) && decide (pos ≤ int32OfU64 endPos)

/-- The row formatter shared by `GetMap` and `noindexGetMap`: left-pad
with `pos - begin` spaces (or left-trim by `begin - pos`, to empty when
the trim exceeds the sequence), then right-trim or right-pad to
`int(endPos - beginPos)` characters. -/
def padTrim (beginPos endPos : Nat) (pos : Int) (seq : List Char) : List Char :=
  let px : Int := pos - i64OfU64 beginPos
  let seq1 :=
    if 0 < px then List.replicate px.toNat ' ' ++ seq
    else if (seq.length : Int) ≤ -px then []
    else seq.drop (-px).toNat
  let epad : Int := i64OfU64 (u64sub endPos beginPos)
  if epad < (seq1.length : Int) then seq1.take epad.toNat
  else seq1 ++ List.replicate (epad - seq1.length).toNat ' '

/-- Formatting one selected record: unpack its packed sequence (Go panics
inside `UnpackSequence` when it is empty, hence `Option`), then pad. -/
def emitRecord (beginPos endPos : Nat) (a : BamAlignment) : Option (List Char) :=
  (UnpackSequence a.seqPacked).map (padTrim beginPos endPos a.pos)

/-- The inner record loop shared by `GetMap`'s chunk walk: consume whole
records from `r` (4-byte size prefix, then the record); stop with the
unconsumed remainder when fewer than `4 + blocksize` bytes remain; stop
with `done = true` on the first record whose `refID` differs; emit the
formatted row for records passing the overlap test.  `none` models the Go
panic inside `UnpackSequence` for an empty packed sequence. -/
def parseLoopF (refID : Int) (beginPos endPos : Nat) :
    Nat → List Nat → Option (List (List Char) × List Nat × Bool)
  | 0, r => some ([], r, false)
  | fuel + 1, r =>
    if r.length < 4 then some ([], r, false)
    else
      let bs := readU32 r 0
      if r.length < bs + 4 then some ([], r, false)
      else
        let ba := parseAlignment ((r.drop 4).take bs)
        if ba.refID != refID then some ([], r, true)
        else if condGo ba.pos ba.tlen beginPos endPos then
          (emitRecord beginPos endPos ba).bind fun row =>
            (parseLoopF refID beginPos endPos fuel (r.drop (4 + bs))).map fun t =>
              (row :: t.1, t.2)
        else parseLoopF refID beginPos endPos fuel (r.drop (4 + bs))

/-- The record loop entry point: each iteration consumes at least 4 bytes
of `r`, so fuel `r.length` never runs out (the fuel-0 arm coincides with
the too-short stop case whenever fuel bounds the length). -/
def parseLoop (refID : Int) (beginPos endPos : Nat) (r : List Nat) :
    Option (List (List Char) × List Nat × Bool) :=
  parseLoopF refID beginPos endPos r.length r

/-- The records laid out in the byte stream `r` (same framing and stopping
rule as `parseLoop`, without filtering): the reference stream against
which `parseLoop`'s emissions are characterised. -/
def recordsOf (r : List Nat) : List BamAlignment :=
  if _h : r.length < 4 then []
  else
    let bs := readU32 r 0
    if _h2 : r.length < bs + 4 then []
    else parseAlignment ((r.drop 4).take bs) :: recordsOf (r.drop (4 + bs))
termination_by r.length
decreasing_by simp only [List.length_drop]; omega

/-- The scan loop of `noindexGetMap` over the preloaded alignment list:
skip records of other references, emit rows for records passing the
overlap test. -/
def noindexScan (als : List BamAlignment) (refID : Int) (beginPos endPos : Nat) :
    Option (List (List Char)) :=
  match als with
  | [] => some []
  | a :: rest =>
    if a.refID != refID then noindexScan rest refID beginPos endPos
    else if condGo a.pos a.tlen beginPos endPos then
      match emitRecord beginPos endPos a with
      | none => none
      | some row => (noindexScan rest refID beginPos endPos).map (row :: ·)
    else noindexScan rest refID beginPos endPos

/-- Model of `noindexGetMap` from the source: range check (a violation panics in
Go, modelled by `none`), then the linear scan.  The preloaded alignment
list is passed in; the `b.partial` panic branch is outside this model. -/
def noindexGetMap (als : List BamAlignment) (refLength : Nat) (refID : Int)
    (beginPos endPos : Nat) : Option (List (List Char)) :=
  if refLength < beginPos ∨ refLength < endPos then none
  else noindexScan als refID beginPos endPos

/-- A BAI chunk: a pair of virtual offsets (`Chunk` in the source). -/
structure Chunk where
  Begin : Nat
  End : Nat
deriving Repr, DecidableEq

/-- Model of `Offset.Compressed`: the compressed-block start, `offset >> 16`. -/
def offsetCompressed (o : Nat) : Nat := o % 18446744073709551616 >>> 16

/-- Model of `Offset.Uncompressed`: the in-block byte offset, `offset & 0xFFFF`. -/
def offsetUncompressed (o : Nat) : Nat := o &&& 0xFFFF

/-- Model of `IndexReference` from the source; the Go map `Bins` is modelled as an
association list with unique keys. -/
structure IndexReference where
  Bins : List (Nat × List Chunk)
  Intervals : List Nat
  Unmapped : Chunk
  TotalMapped : Nat
  TotalUnmapped : Nat

/-- The BAI index: one `IndexReference` per reference sequence. -/
structure Index where
  Refs : List IndexReference

/-- A reference sequence name and length. -/
structure Reference where
  Name : List Char
  Length : Nat

/-- A read of the Go map `iref.Bins[bid]`: a missing key yields the zero
value, the nil chunk slice. -/
def binsLookup (bins : List (Nat × List Chunk)) (bid : Nat) : List Chunk :=
  match bins.find? (fun p => p.1 == bid) with
  | some p => p.2
  | none => []

/-- The per-chunk block walk of `GetMap`: `pi` runs from the chunk's
compressed begin to its compressed end, advancing by `blockAdvance[pi]`
(here the oracle `advance`, which in the source is filled in by
`loadBlock`); each block's bytes (after the initial in-block offset `po`)
are appended to the leftover `remainder` and fed to the record loop.
`fuel` bounds the iteration count: Go's loop would not terminate if an
`advance` of zero were ever returned, and a caller supplies fuel
`p2 + 1 - p1`, enough for every positive advance. -/
def chunkLoop (blocks : Nat → List Nat) (advance : Nat → Nat) (refID : Int)
    (beginPos endPos : Nat) :
    Nat → Nat → Nat → Nat → List Nat → Option (List (List Char))
  | 0, _, _, _, _ => some []
  | fuel + 1, pi, po, p2, remainder =>
    if p2 < pi then some []
    else
      let r1 := remainder ++ (blocks pi).drop po
      match parseLoop refID beginPos endPos r1 with
      | none => none
      | some (rows, rem, d) =>
        if d then some rows
        else
          (chunkLoop blocks advance refID beginPos endPos fuel (pi + advance pi) 0 p2 rem).map
            (rows ++ ·)

/-- The outer chunk loop of `GetMap`, concatenating each chunk's rows. -/
def processChunks (blocks : Nat → List Nat) (advance : Nat → Nat) (refID : Int)
    (beginPos endPos : Nat) : List Chunk → Option (List (List Char))
  | [] => some []
  | ch :: rest =>
    let p1 := offsetCompressed ch.Begin
    let p2 := offsetCompressed ch.End
    match chunkLoop blocks advance refID beginPos endPos (p2 + 1 - p1) p1
        (offsetUncompressed ch.Begin) p2 [] with
    | none => none
    | some rows => (processChunks blocks advance refID beginPos endPos rest).map (rows ++ ·)

/-- Model of `GetMap` from the source.  `blocks` is the decompressed block at each
compressed offset (cache hit or `loadBlock`, which agree), `advance` the
`blockAdvance` table.  Panics (bad `refID` index, range violation) are
`none`; with no index the preloaded scan runs; otherwise the single leaf
bin's chunks are walked. -/
def GetMap (blocks : Nat → List Nat) (advance : Nat → Nat) (refs : List Reference)
    (index : Option Index) (als : List BamAlignment) (refID : Int)
    (beginPos endPos : Nat) : Option (List (List Char)) :=
  if refID < 0 then none
  else
    match refs[refID.toNat]? with
    | none => none
    | some ref =>
      if ref.Length < beginPos ∨ ref.Length < endPos then none
      else
        match index with
        | none => noindexScan als refID beginPos endPos
        | some idx =>
          match idx.Refs[refID.toNat]? with
          | none => none
          | some iref =>
            processChunks blocks advance refID beginPos endPos
              (binsLookup iref.Bins (getBin beginPos endPos))

/-- A node of the S4-LRU cache (`cacheItem` in the source). -/
structure CacheItem where
  qid : Nat
  key : Int
  value : List Nat
deriving Repr, DecidableEq

/-- The S4-LRU block cache (`blockLRUCache`): four LRU queues, each kept
as a list with the front first.  The Go lookup map `data` always maps a
key to the node holding it, so it is represented implicitly by key search
over the queues. -/
structure BlockLRUCache where
  cap : Nat
  q0 : List CacheItem
  q1 : List CacheItem
  q2 : List CacheItem
  q3 : List CacheItem
deriving Repr, DecidableEq

/-- Model of `newLRUCache(capacity)`: per-queue capacity `(capacity + 3) / 4`. -/
def newLRUCache (capacity : Nat) : BlockLRUCache :=
  { cap := (capacity + 3) / 4, q0 := [], q1 := [], q2 := [], q3 := [] }

/-- Read of `c.queues[i]` (queue indices above 3 cannot occur in the source). -/
def getQ (c : BlockLRUCache) : Nat → List CacheItem
  | 0 => c.q0
  | 1 => c.q1
  | 2 => c.q2
  | 3 => c.q3
  | _ => []

/-- Replace `c.queues[i]` wholesale. -/
def setQ (c : BlockLRUCache) (i : Nat) (q : List CacheItem) : BlockLRUCache :=
  match i with
  | 0 => { c with q0 := q }
  | 1 => { c with q1 := q }
  | 2 => { c with q2 := q }
  | 3 => { c with q3 := q }
  | _ => c

/-- Remove the node holding `key` from one queue (Go's `Remove(v)` /
`MoveToFront(v)` act on the one node the lookup map points at; reachable
states hold at most one node per key per queue). -/
def removeKey (q : List CacheItem) (key : Int) : List CacheItem :=
  match q with
  | [] => []
  | it :: rest => if it.key == key then rest else it :: removeKey rest key

/-- The lookup `c.data[key]`: the node currently holding `key`. -/
def qfind (c : BlockLRUCache) (key : Int) : Option CacheItem :=
  (c.q0 ++ c.q1 ++ c.q2 ++ c.q3).find? fun it => it.key == key

/-- Model of `blockLRUCache.Get`: miss on absent key; a queue-3 resident moves to
the front of queue 3; otherwise promote into queue `qid+1` when it has
room; otherwise swap key and value with the tail node of queue `qid+1`
(both nodes keep their queue ids and move to their queues' fronts). -/
def lruGet (c : BlockLRUCache) (key : Int) : Option (List Nat) × BlockLRUCache :=
  match qfind c key with
  | none => (none, c)
  | some item =>
    if item.qid == 3 then
      (some item.value, setQ c 3 (item :: removeKey c.q3 key))
    else if (getQ c (item.qid + 1)).length < c.cap then
      let c1 := setQ c item.qid (removeKey (getQ c item.qid) key)
      (some item.value,
        setQ c1 (item.qid + 1) ({ item with qid := item.qid + 1 } :: getQ c (item.qid + 1)))
    else
      match (getQ c (item.qid + 1)).getLast? with
      | none => (some item.value, c)
      | some other =>
        let qa := { item with key := other.key, value := other.value }
          :: removeKey (getQ c item.qid) key
        let qb := { other with key := item.key, value := item.value }
          :: (getQ c (item.qid + 1)).dropLast
        (some item.value, setQ (setQ c item.qid qa) (item.qid + 1) qb)

/-- Model of `blockLRUCache.Set`: push at the front of queue 0 while it has room;
once full, reuse queue 0's tail node in place (new key and value, same
queue, moved to the front).  The `none` arm of `getLast?` is the
`cap = 0` edge, where Go would dereference a nil tail. -/
def lruSet (c : BlockLRUCache) (key : Int) (value : List Nat) : BlockLRUCache :=
  if c.q0.length < c.cap then
    { c with q0 := ⟨0, key, value⟩ :: c.q0 }
  else
    match c.q0.getLast? with
    | none => c
    | some tail => { c with q0 := { tail with key := key, value := value } :: c.q0.dropLast }

/-- One cache call. -/
inductive CacheOp where
  | set (key : Int) (value : List Nat)
  | get (key : Int)

/-- Run a sequence of cache calls. -/
def runOps (c : BlockLRUCache) : List CacheOp → BlockLRUCache
  | [] => c
  | CacheOp.set k v :: rest => runOps (lruSet c k v) rest
  | CacheOp.get k :: rest => runOps (lruGet c k).2 rest

/-- Total number of cached items across the four queues. -/
def totalItems (c : BlockLRUCache) : Nat :=
  c.q0.length + c.q1.length + c.q2.length + c.q3.length

/-- The value `UnpackSequence` computes on a non-empty packed input,
written as a total function (used to state which rows a query emits). -/
def unpackTotal (packed : List Nat) : List Char :=
  let r := nibbleChars packed
  if r.getLastD ' ' = '=' then r.dropLast else r

/-- The one-record example of spec §8 scenario 3: `ref_id = 0`,
`pos = 100`, `template_length = 10`, sequence `"ACGT"` (packed nibbles
`0x12 0x48`). -/
def demoRec : BamAlignment :=
  { refID := 0, pos := 100, mapq := 0, bin := 0, cigarOpCount := 0, flag := 0,
    seqLen := 4, nextRefID := 0, nextPos := 0, tlen := 10,
    readName := [], cigarPacked := [], seqPacked := [0x12, 0x48], qual := [] }

/-- A record whose reported extent `[10, 15]` starts exactly at the end
of the query interval `[0, 10)`. -/
def cexRec : BamAlignment :=
  { refID := 0, pos := 10, mapq := 0, bin := 0, cigarOpCount := 0, flag := 0,
    seqLen := 4, nextRefID := 0, nextPos := 0, tlen := 5,
    readName := [], cigarPacked := [], seqPacked := [0x12, 0x48], qual := [] }

/-- A call sequence on a capacity-5 cache (per-queue capacity 2) that
drives six distinct keys into the queues at once. -/
def opsOverfill : List CacheOp :=
  [CacheOp.set 1 [], CacheOp.set 2 [], CacheOp.get 1, CacheOp.get 2,
   CacheOp.get 1, CacheOp.get 2, CacheOp.set 3 [], CacheOp.set 4 [],
   CacheOp.get 3, CacheOp.get 4, CacheOp.set 5 [], CacheOp.set 6 []]

/-- The `Set` calls for keys 1, 2, 3, 4 in order (spec §8 scenario 6). -/
def setsFour : List CacheOp :=
  [CacheOp.set 1 [], CacheOp.set 2 [], CacheOp.set 3 [], CacheOp.set 4 []]

/-- Every node's recorded queue id matches the queue holding it. -/
def QidOk (c : BlockLRUCache) : Prop :=
  ∀ i : Nat, ∀ it ∈ getQ c i, it.qid = i

/-- Every queue holds at most `cap` nodes. -/
def CapOk (c : BlockLRUCache) : Prop :=
  ∀ i : Nat, (getQ c i).length ≤ c.cap

/-- The cache invariant preserved by `Get` and `Set`. -/
def CacheInv (c : BlockLRUCache) : Prop := QidOk c ∧ CapOk c

/-- An index entry with no bins (for concrete instances). -/
def emptyIndexRef : IndexReference :=
  { Bins := [], Intervals := [], Unmapped := ⟨0, 0⟩, TotalMapped := 0, TotalUnmapped := 0 }

end Bam

namespace Bam

/-- Helper: on inputs with `b < e ≤ 2^29` the source's `getBin` agrees
with the spec-worded `reg2binSpec` (all wrap-arounds are inert there). -/
theorem getBin_eq_reg2binSpec (b e : Nat) (hbe : b < e) (he : e ≤ 536870912) :
    getBin b e = reg2binSpec b e := by
  have hsub : u64sub e 1 = e - 1 := by unfold u64sub; omega
  unfold getBin reg2binSpec
  rw [hsub]
  simp only [Nat.shiftRight_eq_div_pow, Nat.shiftLeft_eq, u32]
  norm_num
  split_ifs <;> omega

end Bam

open Bam in
/-- C1.  The claim states the canonical UCSC `reg2bins` traversal: for
interval `[0, 1)` the result should be the set `{0, 1, 9, 73, 585, 4681}`,
one bin per level.  The source's level-9 loop reads
`for k := 9 + b>>9; k <= 1+(e>>9); k++` — its upper bound uses base
offset `1` instead of `9` — so the level-9 bin is dropped whenever
`e' >> 9 < b' >> 9 + 8`; at `(0, 1)` the code yields
`[0, 1, 73, 585, 4681]`, omitting bin `9`. -/
theorem c1_getBins_drops_level9_bin :
    getBins 0 1 = [0, 1, 73, 585, 4681] ∧ 9 ∉ getBins 0 1 := by
  constructor
  · decide
  · decide

open Bam in
/-- C2.  The claim asserts `getBin b e ∈ getBins b e` for all
`b < e ≤ 2^29`.  It fails at `(b, e) = (0, 1048577)` (so `b' = 0`,
`e' = 64`): `getBin` returns the level-9 bin `9`, but `getBins` omits
every level-9 bin here because of the loop-bound slip described at C1. -/
theorem c2_getBin_not_in_getBins :
    getBin 0 1048577 = 9 ∧ 9 ∉ getBins 0 1048577 := by
  refine ⟨by decide, ?_⟩
  simp only [getBins, upRange, u64sub, u32]
  decide

open Bam in
/-- C8.  `getBin` implements the narrowest-level-first region-to-bin
algorithm exactly as the spec words it (base offsets 4681, 585, 73, 9, 1,
0 over `b' = b >> 14`, `e' = (e-1) >> 14`), for every `b < e ≤ 2^29`,
and satisfies the four literal evaluations of the spec. -/
theorem c8_getBin_refines_spec :
    (∀ b e : Nat, b < e → e ≤ 536870912 → getBin b e = reg2binSpec b e) ∧
      getBin 0 1 = 4681 ∧ getBin 0 16384 = 4681 ∧
      getBin 0 16385 = 585 ∧ getBin 0 536870912 = 0 :=
  ⟨fun b e hbe he => getBin_eq_reg2binSpec b e hbe he,
    by decide, by decide, by decide, by decide⟩

open Bam in
/-- Witness for C8: the refinement applied at the concrete interval
`[100, 40000)`. -/
theorem c8_witness : getBin 100 40000 = reg2binSpec 100 40000 :=
  c8_getBin_refines_spec.1 100 40000 (by decide) (by decide)

open Bam in
/-- C3.  The claim says `LoadIndex` accepts exactly the files whose magic
is `BAI\1` and errors on any other magic.  The source instead tests
`bytes.Equal(tmp, []byte{'B','A','M',1})` — on the 8-byte buffer it just
read, and returning the error on a MATCH — so the comparison of an 8-byte
buffer with a 4-byte literal is always false and the loader rejects no
magic at all: for every 8-byte header it proceeds to parse. -/
theorem c3_loadIndex_never_rejects :
    ∀ tmp : List Nat, tmp.length = 8 → loadIndexRejects tmp = false := by
  intro tmp h
  simp only [loadIndexRejects, bytesEqual]
  rw [beq_eq_false_iff_ne]
  intro hEq
  rw [hEq] at h
  simp [bamLiteral] at h

open Bam in
/-- Witness for C3: the header `"XXXX\0\0\0\0"`, whose magic is not
`BAI\1`, is nevertheless not rejected. -/
theorem c3_witness :
    ([88, 88, 88, 88, 0, 0, 0, 0] : List Nat).length = 8 ∧
      loadIndexRejects [88, 88, 88, 88, 0, 0, 0, 0] = false :=
  ⟨by decide, c3_loadIndex_never_rejects [88, 88, 88, 88, 0, 0, 0, 0] (by decide)⟩

namespace Bam

/-- Helper: the nibble expansion emits two characters per packed byte. -/
theorem nibbleChars_length (p : List Nat) : (nibbleChars p).length = 2 * p.length := by
  induction p with
  | nil => simp [nibbleChars]
  | cons a t ih =>
    simp only [nibbleChars, List.flatMap_cons] at ih ⊢
    simp only [List.length_append, List.length_cons, List.length_nil]
    omega

/-- Helper: the nibble expansion of a non-empty input is non-empty. -/
theorem nibbleChars_ne_nil (p : List Nat) (hp : p ≠ []) : nibbleChars p ≠ [] := by
  intro h
  have hlen := nibbleChars_length p
  rw [h] at hlen
  simp only [List.length_nil] at hlen
  exact hp (List.length_eq_zero.mp (by omega))

/-- Helper: on non-empty input `UnpackSequence` returns `unpackTotal`. -/
theorem unpackSequence_eq_total (p : List Nat) (hp : p ≠ []) :
    UnpackSequence p = some (unpackTotal p) := by
  unfold UnpackSequence unpackTotal
  have hne := nibbleChars_ne_nil p hp
  cases hgl : (nibbleChars p).getLast? with
  | none => exact absurd (List.getLast?_eq_none_iff.mp hgl) hne
  | some c =>
    have hd : (nibbleChars p).getLastD ' ' = c := by
      rw [List.getLastD_eq_getLast?, hgl]
      rfl
    simp only [hgl, hd]
    split <;> rfl

end Bam

open Bam in
/-- C9.  `UnpackSequence` panics on an empty packed slice (the final
`r[len(r)-1] == '='` test indexes an empty buffer), which `parseAlignment`
produces for every record with `seq_length = 0`; on a non-empty `n`-byte
slice it returns the `2n` nibble-decoded characters, minus the last one
exactly when that last character is `'='`. -/
theorem c9_unpackSequence_empty_is_panic :
    UnpackSequence [] = none ∧
      (∀ r : List Nat, (parseAlignment r).seqLen = 0 → (parseAlignment r).seqPacked = []) ∧
      (∀ p : List Nat, p ≠ [] →
        (nibbleChars p).length = 2 * p.length ∧
          UnpackSequence p =
            some (if (nibbleChars p).getLastD ' ' = '='
              then (nibbleChars p).dropLast else nibbleChars p)) := by
  refine ⟨rfl, ?_, ?_⟩
  · intro r h
    simp only [parseAlignment] at h ⊢
    rw [h]
    norm_num
  · intro p hp
    refine ⟨nibbleChars_length p, ?_⟩
    rw [unpackSequence_eq_total p hp]
    unfold unpackTotal
    rfl

namespace Bam

/-- Helper: for `b ≤ e < 2^63` the formatter always produces exactly
`e - b` characters, whatever the record's position and sequence. -/
theorem padTrim_length (b e : Nat) (pos : Int) (seq : List Char)
    (hbe : b ≤ e) (he : e < 9223372036854775808) :
    (padTrim b e pos seq).length = e - b := by
  have hsub : u64sub e b = e - b := by unfold u64sub; omega
  have hi64 : i64OfU64 (e - b) = ((e - b : Nat) : Int) := by
    unfold i64OfU64
    rw [if_pos (by omega : (e - b) % 18446744073709551616 < 9223372036854775808)]
    omega
  unfold padTrim
  rw [hsub, hi64]
  dsimp only
  repeat' split
  all_goals
    simp only [List.length_take, List.length_append, List.length_replicate,
      List.length_drop, List.length_nil] at *
  all_goals omega

end Bam

open Bam in
/-- C5.  Every emitted row has length exactly `end - begin` (left-pad by
`pos - begin` spaces, or left-trim by `begin - pos`, then right-trim or
right-pad to `end - begin`); and the literal scenario: a
one-record query `get_map(0, 95, 115)` with `pos = 100` and sequence
`"ACGT"` yields the single 20-character row `"     ACGT           "`
(5 leading and 11 trailing spaces). -/
theorem c5_row_length :
    (∀ (b e : Nat) (pos : Int) (seq : List Char), b ≤ e → e < 9223372036854775808 →
      (padTrim b e pos seq).length = e - b) ∧
      noindexGetMap [demoRec] 1000 0 95 115 = some ["     ACGT           ".toList] := by
  refine ⟨fun b e pos seq hbe he => padTrim_length b e pos seq hbe he, ?_⟩
  decide

open Bam in
/-- Witness for C5: the row-length property at the scenario's own
parameters. -/
theorem c5_witness :
    (padTrim 95 115 100 "ACGT".toList).length = 115 - 95 :=
  c5_row_length.1 95 115 100 "ACGT".toList (by decide) (by decide)

namespace Bam

/-- Helper: `recordsOf` unfolded once in the branch that parses a record. -/
theorem recordsOf_cons (r : List Nat) (h4 : ¬ r.length < 4)
    (hbs : ¬ r.length < readU32 r 0 + 4) :
    recordsOf r =
      parseAlignment ((r.drop 4).take (readU32 r 0)) :: recordsOf (r.drop (4 + readU32 r 0)) := by
  rw [recordsOf.eq_def, dif_neg h4]
  dsimp only
  rw [dif_neg hbs]

/-- Helper: `recordsOf` is empty when no whole record fits. -/
theorem recordsOf_nil (r : List Nat) (h : r.length < 4 ∨ r.length < readU32 r 0 + 4) :
    recordsOf r = [] := by
  rw [recordsOf.eq_def]
  rcases h with h | h
  · rw [dif_pos h]
  · by_cases h4 : r.length < 4
    · rw [dif_pos h4]
    · rw [dif_neg h4]
      dsimp only
      rw [dif_pos h]

/-- Helper: `parseLoopF` unfolded once in the branch that parses a record. -/
theorem parseLoopF_step (refID : Int) (b e : Nat) (fuel : Nat) (r : List Nat)
    (h4 : ¬ r.length < 4) (hbs : ¬ r.length < readU32 r 0 + 4) :
    parseLoopF refID b e (fuel + 1) r =
      (if (parseAlignment ((r.drop 4).take (readU32 r 0))).refID != refID
        then some ([], r, true)
        else if condGo (parseAlignment ((r.drop 4).take (readU32 r 0))).pos
            (parseAlignment ((r.drop 4).take (readU32 r 0))).tlen b e then
          (emitRecord b e (parseAlignment ((r.drop 4).take (readU32 r 0)))).bind fun row =>
            (parseLoopF refID b e fuel (r.drop (4 + readU32 r 0))).map fun t =>
              (row :: t.1, t.2)
        else parseLoopF refID b e fuel (r.drop (4 + readU32 r 0))) := by
  rw [parseLoopF, if_neg h4]
  dsimp only
  rw [if_neg hbs]

/-- Helper: `parseLoopF` stops with an empty emission when no whole record
fits in the buffer. -/
theorem parseLoopF_stop (refID : Int) (b e : Nat) (fuel : Nat) (r : List Nat)
    (h : r.length < 4 ∨ r.length < readU32 r 0 + 4) :
    parseLoopF refID b e (fuel + 1) r = some ([], r, false) := by
  rw [parseLoopF]
  rcases h with h | h
  · rw [if_pos h]
  · by_cases h4 : r.length < 4
    · rw [if_pos h4]
    · rw [if_neg h4]
      dsimp only
      rw [if_pos h]

/-- Helper: the `noindexGetMap` scan emits exactly the records whose
`refID` matches and which pass the source's overlap test, each formatted
by `padTrim`. -/
theorem noindexScan_eq_filter (als : List BamAlignment) (refID : Int) (b e : Nat)
    (h : ∀ a ∈ als, a.seqPacked ≠ []) :
    noindexScan als refID b e =
      some ((als.filter fun a => a.refID == refID && condGo a.pos a.tlen b e).map
        fun a => padTrim b e a.pos (unpackTotal a.seqPacked)) := by
  induction als with
  | nil => simp [noindexScan]
  | cons a rest ih =>
    have hrest := ih fun x hx => h x (List.mem_cons_of_mem a hx)
    have ha : a.seqPacked ≠ [] := h a (List.mem_cons_self a rest)
    cases hid : (a.refID == refID) <;> cases hc : condGo a.pos a.tlen b e <;>
      simp [noindexScan, hid, hc, hrest, List.filter_cons, emitRecord,
        unpackSequence_eq_total a.seqPacked ha] <;>
      simp_all [beq_iff_eq]

/-- Helper: the chunk-walk record loop emits exactly the records laid out
in the buffer up to the first `refID` mismatch that pass the source's
overlap test, each formatted by `padTrim`. -/
theorem parseLoopF_eq_takeWhile (refID : Int) (b e : Nat) :
    ∀ (fuel : Nat) (r : List Nat), r.length ≤ fuel →
      (∀ a ∈ recordsOf r, a.seqPacked ≠ []) →
      ∃ rem d, parseLoopF refID b e fuel r =
        some ((((recordsOf r).takeWhile fun a => a.refID == refID).filter
            fun a => condGo a.pos a.tlen b e).map
          (fun a => padTrim b e a.pos (unpackTotal a.seqPacked)), rem, d) := by
  intro fuel
  induction fuel with
  | zero =>
    intro r hr h
    refine ⟨r, false, ?_⟩
    rw [recordsOf_nil r (Or.inl (by omega))]
    simp [parseLoopF]
  | succ n ih =>
    intro r hr h
    by_cases h4 : r.length < 4
    · refine ⟨r, false, ?_⟩
      rw [parseLoopF_stop refID b e n r (Or.inl h4), recordsOf_nil r (Or.inl h4)]
      simp
    · by_cases hbs : r.length < readU32 r 0 + 4
      · refine ⟨r, false, ?_⟩
        rw [parseLoopF_stop refID b e n r (Or.inr hbs), recordsOf_nil r (Or.inr hbs)]
        simp
      · have hcons := recordsOf_cons r h4 hbs
        have hdrop : (r.drop (4 + readU32 r 0)).length ≤ n := by
          rw [List.length_drop]
          omega
        have htail : ∀ a ∈ recordsOf (r.drop (4 + readU32 r 0)), a.seqPacked ≠ [] :=
          fun a hx => h a (by rw [hcons]; exact List.mem_cons_of_mem _ hx)
        obtain ⟨rem, d, hrec⟩ := ih (r.drop (4 + readU32 r 0)) hdrop htail
        rw [parseLoopF_step refID b e n r h4 hbs, hcons]
        cases hid : ((parseAlignment ((r.drop 4).take (readU32 r 0))).refID == refID) with
        | false =>
          refine ⟨r, true, ?_⟩
          simp [bne, hid, List.takeWhile_cons]
        | true =>
          have hba : (parseAlignment ((r.drop 4).take (readU32 r 0))).seqPacked ≠ [] :=
            h _ (by rw [hcons]; exact List.mem_cons_self _ _)
          cases hc : condGo (parseAlignment ((r.drop 4).take (readU32 r 0))).pos
              (parseAlignment ((r.drop 4).take (readU32 r 0))).tlen b e with
          | false =>
            refine ⟨rem, d, ?_⟩
            simp [bne, hid, hc, hrec, List.takeWhile_cons, List.filter_cons]
          | true =>
            refine ⟨rem, d, ?_⟩
            simp [bne, hid, hc, hrec, List.takeWhile_cons, List.filter_cons,
              emitRecord, unpackSequence_eq_total _ hba]

/-- Helper: the characterisation at the entry point `parseLoop`. -/
theorem parseLoop_eq_takeWhile (refID : Int) (b e : Nat) (r : List Nat)
    (h : ∀ a ∈ recordsOf r, a.seqPacked ≠ []) :
    ∃ rem d, parseLoop refID b e r =
      some ((((recordsOf r).takeWhile fun a => a.refID == refID).filter
          fun a => condGo a.pos a.tlen b e).map
        (fun a => padTrim b e a.pos (unpackTotal a.seqPacked)), rem, d) :=
  parseLoopF_eq_takeWhile refID b e r.length r le_rfl h

/-- Helper: with no `int32` overflow in play, the source's overlap test
accepts exactly when the closed extent `[pos, pos+tlen]` meets the CLOSED
interval `[b, e]`. -/
theorem condGo_iff_closed (pos tlen : Int) (b e : Nat)
    (hpos : 0 ≤ pos) (htlen : 0 ≤ tlen) (hsum : pos + tlen < 2147483648)
    (hbe : b ≤ e) (he : e < 2147483648) :
    (condGo pos tlen b e = true ↔
      ∃ x : Int, pos ≤ x ∧ x ≤ pos + tlen ∧ (b : Int) ≤ x ∧ x ≤ (e : Int)) := by
  have hw : wrap32 (pos + tlen) = pos + tlen := by unfold wrap32; omega
  have hb32 : int32OfU64 b = (b : Int) := by unfold int32OfU64 wrap32; omega
  have he32 : int32OfU64 e = (e : Int) := by unfold int32OfU64 wrap32; omega
  unfold condGo
  rw [hw, hb32, he32]
  simp only [Bool.and_eq_true, decide_eq_true_eq]
  constructor
  · rintro ⟨h1, h2⟩
    rcases le_total pos (b : Int) with hpb | hpb
    · refine ⟨(b : Int), hpb, h1, le_refl _, ?_⟩
      omega
    · refine ⟨pos, le_refl _, ?_, hpb, h2⟩
      omega
  · rintro ⟨x, hx1, hx2, hx3, hx4⟩
    omega

end Bam

open Bam in
/-- C4.  The claim says a matching record is emitted iff its extent
`[pos, pos+tlen]` intersects the HALF-OPEN `[begin, end)`.  The source
tests `ba.pos <= int32(endPos)`, so a record starting exactly at `end`
is also emitted: `cexRec` (pos 10, tlen 5) is emitted by the query
`(0, 0, 10)` although `[10, 15] ∩ [0, 10) = ∅`. -/
theorem c4_counterexample :
    noindexGetMap [cexRec] 100 0 0 10 = some [List.replicate 10 ' '] ∧
      Finset.Icc (10 : Int) 15 ∩ Finset.Ico (0 : Int) 10 = ∅ := by
  constructor
  · decide
  · decide

open Bam in
/-- C4 (amended).  In both query paths a record with matching `ref_id` is
formatted and emitted if and only if it passes the source's test
`pos + tlen ≥ begin ∧ pos ≤ end`, i.e. iff its extent `[pos, pos+tlen]`
intersects the CLOSED interval `[begin, end]` (not the half-open one):
(1) the no-index scan emits exactly the matching+passing records,
(2) the indexed chunk loop emits exactly the passing records up to its
first `ref_id` mismatch, and (3) absent `int32` overflow the test is
equivalent to non-empty closed-interval intersection. -/
theorem c4_emission_closed_overlap :
    (∀ (als : List BamAlignment) (refID : Int) (b e : Nat),
      (∀ a ∈ als, a.seqPacked ≠ []) →
      noindexScan als refID b e =
        some ((als.filter fun a => a.refID == refID && condGo a.pos a.tlen b e).map
          fun a => padTrim b e a.pos (unpackTotal a.seqPacked))) ∧
    (∀ (refID : Int) (b e : Nat) (r : List Nat),
      (∀ a ∈ recordsOf r, a.seqPacked ≠ []) →
      ∃ rem d, parseLoop refID b e r =
        some ((((recordsOf r).takeWhile fun a => a.refID == refID).filter
            fun a => condGo a.pos a.tlen b e).map
          (fun a => padTrim b e a.pos (unpackTotal a.seqPacked)), rem, d)) ∧
    (∀ (pos tlen : Int) (b e : Nat), 0 ≤ pos → 0 ≤ tlen → pos + tlen < 2147483648 →
      b ≤ e → e < 2147483648 →
      (condGo pos tlen b e = true ↔
        ∃ x : Int, pos ≤ x ∧ x ≤ pos + tlen ∧ (b : Int) ≤ x ∧ x ≤ (e : Int))) :=
  ⟨noindexScan_eq_filter,
    fun refID b e r h => parseLoop_eq_takeWhile refID b e r h,
    fun pos tlen b e h1 h2 h3 h4 h5 => condGo_iff_closed pos tlen b e h1 h2 h3 h4 h5⟩

open Bam in
/-- Witness for C4: the closed-interval characterisation at the concrete
record `(pos, tlen) = (3, 4)` and query `[2, 5]`. -/
theorem c4_witness :
    condGo 3 4 2 5 = true ↔
      ∃ x : Int, 3 ≤ x ∧ x ≤ 3 + 4 ∧ ((2 : Nat) : Int) ≤ x ∧ x ≤ ((5 : Nat) : Int) :=
  c4_emission_closed_overlap.2.2 3 4 2 5 (by norm_num) (by norm_num) (by norm_num)
    (by norm_num) (by norm_num)

namespace Bam

/-- Helper: queues above index 3 are empty. -/
theorem getQ_high (c : BlockLRUCache) (i : Nat) (hi : 4 ≤ i) : getQ c i = [] := by
  rcases i with _ | _ | _ | _ | i <;> first | omega | rfl

/-- Helper: `setQ` never changes the capacity. -/
theorem setQ_cap (c : BlockLRUCache) (i : Nat) (q : List CacheItem) :
    (setQ c i q).cap = c.cap := by
  rcases i with _ | _ | _ | _ | i <;> rfl

/-- Helper: reading back the queue just written. -/
theorem getQ_setQ_self (c : BlockLRUCache) (i : Nat) (q : List CacheItem) (hi : i < 4) :
    getQ (setQ c i q) i = q := by
  rcases i with _ | _ | _ | _ | i <;> first | omega | rfl

/-- Helper: writing one queue leaves the others unchanged. -/
theorem getQ_setQ_ne (c : BlockLRUCache) (i j : Nat) (q : List CacheItem) (hij : i ≠ j) :
    getQ (setQ c j q) i = getQ c i := by
  rcases j with _ | _ | _ | _ | j <;> rcases i with _ | _ | _ | _ | i <;>
    first | rfl | omega

/-- Helper: `removeKey` only drops elements. -/
theorem removeKey_subset (q : List CacheItem) (k : Int) :
    ∀ it ∈ removeKey q k, it ∈ q := by
  induction q with
  | nil => intro it hit; simp [removeKey] at hit
  | cons a rest ih =>
    intro it hit
    unfold removeKey at hit
    split at hit
    · exact List.mem_cons_of_mem a hit
    · rcases List.mem_cons.1 hit with h1 | h1
      · exact h1 ▸ List.mem_cons_self a rest
      · exact List.mem_cons_of_mem a (ih it h1)

/-- Helper: `removeKey` never lengthens a queue. -/
theorem removeKey_length_le (q : List CacheItem) (k : Int) :
    (removeKey q k).length ≤ q.length := by
  induction q with
  | nil => simp [removeKey]
  | cons a rest ih =>
    unfold removeKey
    split
    · simp
    · simpa using ih

/-- Helper: removing a key that is present drops exactly one node. -/
theorem removeKey_length_of_mem (q : List CacheItem) (k : Int)
    (h : ∃ it ∈ q, it.key = k) : (removeKey q k).length + 1 = q.length := by
  induction q with
  | nil => simp at h
  | cons a rest ih =>
    unfold removeKey
    split
    · simp
    · rename_i hne
      obtain ⟨it, hit, hk⟩ := h
      rcases List.mem_cons.1 hit with h1 | h1
      · have hak : (a.key == k) = true := by
          rw [← h1, hk]
          exact beq_self_eq_true k
        exact absurd hak (by simpa using hne)
      · simpa using ih ⟨it, h1, hk⟩

/-- Helper: a successful `data[key]` lookup returns a node that holds
`key` and lives in one of the four queues. -/
theorem qfind_spec (c : BlockLRUCache) (k : Int) (item : CacheItem)
    (hf : qfind c k = some item) :
    item.key = k ∧ ∃ j, j < 4 ∧ item ∈ getQ c j := by
  have hp := List.find?_some hf
  have hm := List.mem_of_find?_eq_some hf
  refine ⟨by simpa using hp, ?_⟩
  simp only [List.mem_append] at hm
  rcases hm with ((h | h) | h) | h
  · exact ⟨0, by omega, h⟩
  · exact ⟨1, by omega, h⟩
  · exact ⟨2, by omega, h⟩
  · exact ⟨3, by omega, h⟩

/-- Helper: the fresh cache satisfies the invariant. -/
theorem newLRUCache_inv (capacity : Nat) : CacheInv (newLRUCache capacity) := by
  constructor
  · intro i it hit
    rcases i with _ | _ | _ | _ | i <;> simp [getQ, newLRUCache] at hit
  · intro i
    rcases i with _ | _ | _ | _ | i <;> simp [getQ, newLRUCache]

/-- Helper: `Set` preserves the invariant. -/
theorem lruSet_inv (c : BlockLRUCache) (k : Int) (v : List Nat) (h : CacheInv c) :
    CacheInv (lruSet c k v) := by
  obtain ⟨hq, hcap⟩ := h
  unfold lruSet
  split
  · rename_i hroom
    constructor
    · intro i it hit
      by_cases hi4 : 4 ≤ i
      · rw [getQ_high _ i hi4] at hit
        simp at hit
      · have hi : i < 4 := by omega
        interval_cases i
        · rcases List.mem_cons.1 hit with h1 | h1
          · rw [h1]
          · exact hq 0 it h1
        · exact hq 1 it hit
        · exact hq 2 it hit
        · exact hq 3 it hit
    · intro i
      by_cases hi4 : 4 ≤ i
      · rw [getQ_high _ i hi4]
        simp
      · have hi : i < 4 := by omega
        interval_cases i
        · show (CacheItem.mk 0 k v :: c.q0).length ≤ c.cap
          have h0 : c.q0.length < c.cap := hroom
          simp only [List.length_cons]
          omega
        · exact hcap 1
        · exact hcap 2
        · exact hcap 3
  · cases hgl : c.q0.getLast? with
    | none => exact ⟨hq, hcap⟩
    | some tail =>
      dsimp only
      have htail : tail ∈ c.q0 := List.mem_of_mem_getLast? hgl
      have hlen : 1 ≤ c.q0.length := by
        cases hq0 : c.q0 with
        | nil => rw [hq0] at hgl; simp at hgl
        | cons a t => simp
      constructor
      · intro i it hit
        by_cases hi4 : 4 ≤ i
        · rw [getQ_high _ i hi4] at hit
          simp at hit
        · have hi : i < 4 := by omega
          interval_cases i
          · rcases List.mem_cons.1 hit with h1 | h1
            · rw [h1]
              exact hq 0 tail htail
            · exact hq 0 it (List.dropLast_subset c.q0 h1)
          · exact hq 1 it hit
          · exact hq 2 it hit
          · exact hq 3 it hit
      · intro i
        by_cases hi4 : 4 ≤ i
        · rw [getQ_high _ i hi4]
          simp
        · have hi : i < 4 := by omega
          interval_cases i
          · show ({ tail with key := k, value := v } :: c.q0.dropLast).length ≤ c.cap
            have h0 : c.q0.length ≤ c.cap := hcap 0
            simp only [List.length_cons, List.length_dropLast]
            omega
          · exact hcap 1
          · exact hcap 2
          · exact hcap 3

/-- Helper: a queue-3 hit (move to front of queue 3) keeps the invariant. -/
theorem front3_inv (c : BlockLRUCache) (item : CacheItem) (k : Int)
    (hq : QidOk c) (hcap : CapOk c) (hitem : item ∈ c.q3) (hqid : item.qid = 3)
    (hkey : item.key = k) :
    CacheInv (setQ c 3 (item :: removeKey c.q3 k)) := by
  constructor
  · intro i it hit
    by_cases hi4 : 4 ≤ i
    · rw [getQ_high _ i hi4] at hit
      simp at hit
    · by_cases h3 : i = 3
      · subst h3
        rw [getQ_setQ_self _ _ _ (by omega)] at hit
        rcases List.mem_cons.1 hit with h1 | h1
        · rw [h1]
          exact hqid
        · exact hq 3 it (removeKey_subset c.q3 k it h1)
      · rw [getQ_setQ_ne _ i 3 _ h3] at hit
        exact hq i it hit
  · intro i
    rw [setQ_cap]
    by_cases hi4 : 4 ≤ i
    · rw [getQ_high _ i hi4]
      simp
    · by_cases h3 : i = 3
      · subst h3
        rw [getQ_setQ_self _ _ _ (by omega)]
        have hrem := removeKey_length_of_mem c.q3 k ⟨item, hitem, hkey⟩
        have hc3 : c.q3.length ≤ c.cap := hcap 3
        simp only [List.length_cons]
        omega
      · rw [getQ_setQ_ne _ i 3 _ h3]
        exact hcap i

/-- Helper: promotion into a queue with room keeps the invariant. -/
theorem promote_inv (c : BlockLRUCache) (item : CacheItem) (k : Int) (i : Nat)
    (hq : QidOk c) (hcap : CapOk c) (hi : i + 1 < 4)
    (hroom : (getQ c (i + 1)).length < c.cap) :
    CacheInv (setQ (setQ c i (removeKey (getQ c i) k)) (i + 1)
      ({ item with qid := i + 1 } :: getQ c (i + 1))) := by
  have hne : i ≠ i + 1 := by omega
  constructor
  · intro j it hit
    by_cases hj4 : 4 ≤ j
    · rw [getQ_high _ j hj4] at hit
      simp at hit
    · by_cases hj1 : j = i + 1
      · subst hj1
        rw [getQ_setQ_self _ _ _ hi] at hit
        rcases List.mem_cons.1 hit with h1 | h1
        · rw [h1]
        · exact hq (i + 1) it h1
      · rw [getQ_setQ_ne _ j (i + 1) _ hj1] at hit
        by_cases hji : j = i
        · subst hji
          rw [getQ_setQ_self _ _ _ (by omega)] at hit
          exact hq j it (removeKey_subset (getQ c j) k it hit)
        · rw [getQ_setQ_ne _ j i _ hji] at hit
          exact hq j it hit
  · intro j
    rw [setQ_cap, setQ_cap]
    by_cases hj4 : 4 ≤ j
    · rw [getQ_high _ j hj4]
      simp
    · by_cases hj1 : j = i + 1
      · subst hj1
        rw [getQ_setQ_self _ _ _ hi]
        simp only [List.length_cons]
        omega
      · rw [getQ_setQ_ne _ j (i + 1) _ hj1]
        by_cases hji : j = i
        · subst hji
          rw [getQ_setQ_self _ _ _ (by omega)]
          exact le_trans (removeKey_length_le (getQ c j) k) (hcap j)
        · rw [getQ_setQ_ne _ j i _ hji]
          exact hcap j

/-- Helper: the in-place key/value swap with the tail of the next queue
keeps the invariant. -/
theorem swap_inv (c : BlockLRUCache) (item other : CacheItem) (k : Int) (i : Nat)
    (hq : QidOk c) (hcap : CapOk c) (hi : i + 1 < 4)
    (hitem : item ∈ getQ c i) (hkey : item.key = k)
    (hgl : (getQ c (i + 1)).getLast? = some other) :
    CacheInv (setQ (setQ c i ({ item with key := other.key, value := other.value }
        :: removeKey (getQ c i) k)) (i + 1)
      ({ other with key := item.key, value := item.value } :: (getQ c (i + 1)).dropLast)) := by
  have hother : other ∈ getQ c (i + 1) := List.mem_of_mem_getLast? hgl
  have hoqid : other.qid = i + 1 := hq (i + 1) other hother
  have hiqid : item.qid = i := hq i item hitem
  have hne1 : getQ c (i + 1) ≠ [] := by
    intro h0
    rw [h0] at hgl
    simp at hgl
  have hlen1 : 1 ≤ (getQ c (i + 1)).length := List.length_pos.mpr hne1
  constructor
  · intro j it hit
    by_cases hj4 : 4 ≤ j
    · rw [getQ_high _ j hj4] at hit
      simp at hit
    · by_cases hj1 : j = i + 1
      · subst hj1
        rw [getQ_setQ_self _ _ _ hi] at hit
        rcases List.mem_cons.1 hit with h1 | h1
        · rw [h1]
          exact hoqid
        · exact hq (i + 1) it (List.dropLast_subset _ h1)
      · rw [getQ_setQ_ne _ j (i + 1) _ hj1] at hit
        by_cases hji : j = i
        · subst hji
          rw [getQ_setQ_self _ _ _ (by omega)] at hit
          rcases List.mem_cons.1 hit with h1 | h1
          · rw [h1]
            exact hiqid
          · exact hq j it (removeKey_subset (getQ c j) k it h1)
        · rw [getQ_setQ_ne _ j i _ hji] at hit
          exact hq j it hit
  · intro j
    rw [setQ_cap, setQ_cap]
    by_cases hj4 : 4 ≤ j
    · rw [getQ_high _ j hj4]
      simp
    · by_cases hj1 : j = i + 1
      · subst hj1
        rw [getQ_setQ_self _ _ _ hi]
        have hc1 : (getQ c (i + 1)).length ≤ c.cap := hcap (i + 1)
        simp only [List.length_cons, List.length_dropLast]
        omega
      · rw [getQ_setQ_ne _ j (i + 1) _ hj1]
        by_cases hji : j = i
        · subst hji
          rw [getQ_setQ_self _ _ _ (by omega)]
          have hrem := removeKey_length_of_mem (getQ c j) k ⟨item, hitem, hkey⟩
          have hcj : (getQ c j).length ≤ c.cap := hcap j
          simp only [List.length_cons]
          omega
        · rw [getQ_setQ_ne _ j i _ hji]
          exact hcap j

/-- Helper: `Get` preserves the invariant. -/
theorem lruGet_inv (c : BlockLRUCache) (k : Int) (h : CacheInv c) :
    CacheInv (lruGet c k).2 := by
  obtain ⟨hq, hcap⟩ := h
  unfold lruGet
  cases hf : qfind c k with
  | none => exact ⟨hq, hcap⟩
  | some item =>
    dsimp only
    obtain ⟨hkey, j, hj, hmem⟩ := qfind_spec c k item hf
    have hqid : item.qid = j := hq j item hmem
    by_cases h3 : item.qid = 3
    · rw [if_pos (by simp [h3])]
      have hj3 : j = 3 := by omega
      subst hj3
      exact front3_inv c item k hq hcap hmem h3 hkey
    · rw [if_neg (by simp [h3])]
      have hi : item.qid + 1 < 4 := by omega
      by_cases hroom : (getQ c (item.qid + 1)).length < c.cap
      · rw [if_pos hroom]
        exact promote_inv c item k item.qid hq hcap hi hroom
      · rw [if_neg hroom]
        cases hgl : (getQ c (item.qid + 1)).getLast? with
        | none => exact ⟨hq, hcap⟩
        | some other =>
          dsimp only
          exact swap_inv c item other k item.qid hq hcap hi
            (by rw [hqid]; exact hmem) hkey hgl

/-- Helper: `Set` leaves the per-queue capacity field unchanged. -/
theorem lruSet_cap (c : BlockLRUCache) (k : Int) (v : List Nat) :
    (lruSet c k v).cap = c.cap := by
  unfold lruSet
  split
  · rfl
  · cases hgl : c.q0.getLast? <;> rfl

/-- Helper: `Get` leaves the per-queue capacity field unchanged. -/
theorem lruGet_cap (c : BlockLRUCache) (k : Int) : (lruGet c k).2.cap = c.cap := by
  unfold lruGet
  cases hf : qfind c k with
  | none => rfl
  | some item =>
    dsimp only
    split
    · rw [setQ_cap]
    · split
      · rw [setQ_cap, setQ_cap]
      · cases hgl : (getQ c (item.qid + 1)).getLast? with
        | none => rfl
        | some other =>
          dsimp only
          rw [setQ_cap, setQ_cap]

/-- Helper: every call sequence preserves the invariant. -/
theorem runOps_inv (ops : List CacheOp) :
    ∀ c : BlockLRUCache, CacheInv c → CacheInv (runOps c ops) := by
  induction ops with
  | nil => exact fun c h => h
  | cons op rest ih =>
    intro c h
    cases op with
    | set kk vv => exact ih _ (lruSet_inv c kk vv h)
    | get kk => exact ih _ (lruGet_inv c kk h)

/-- Helper: every call sequence preserves the capacity field. -/
theorem runOps_cap (ops : List CacheOp) :
    ∀ c : BlockLRUCache, (runOps c ops).cap = c.cap := by
  induction ops with
  | nil => exact fun c => rfl
  | cons op rest ih =>
    intro c
    cases op with
    | set kk vv => rw [runOps, ih, lruSet_cap]
    | get kk => rw [runOps, ih, lruGet_cap]

end Bam

open Bam in
/-- C6.  The claim bounds the total item count by the constructor argument
`c`.  With per-queue capacity `(c+3)/4`, four queues can simultaneously
hold up to `4⌈c/4⌉ > c` items when `4 ∤ c`: on `newLRUCache 5`
(per-queue capacity 2) the sequence `opsOverfill` leaves 6 items cached. -/
theorem c6_counterexample :
    totalItems (runOps (newLRUCache 5) opsOverfill) = 6 ∧
      5 < totalItems (runOps (newLRUCache 5) opsOverfill) := by
  constructor
  · decide
  · decide

open Bam in
/-- C6 (amended).  For every capacity `c` and every `Set`/`Get` sequence,
the total number of cached items never exceeds `4 * ((c + 3) / 4)`
(which equals `c` exactly when `4 ∣ c`): each queue is individually
bounded by the per-queue capacity `(c + 3) / 4`. -/
theorem c6_total_bounded (capacity : Nat) (ops : List CacheOp) :
    totalItems (runOps (newLRUCache capacity) ops) ≤ 4 * ((capacity + 3) / 4) := by
  have hinv := runOps_inv ops (newLRUCache capacity) (newLRUCache_inv capacity)
  have hcapf := runOps_cap ops (newLRUCache capacity)
  obtain ⟨-, hcap⟩ := hinv
  have h0 : (runOps (newLRUCache capacity) ops).q0.length
      ≤ (runOps (newLRUCache capacity) ops).cap := hcap 0
  have h1 : (runOps (newLRUCache capacity) ops).q1.length
      ≤ (runOps (newLRUCache capacity) ops).cap := hcap 1
  have h2 : (runOps (newLRUCache capacity) ops).q2.length
      ≤ (runOps (newLRUCache capacity) ops).cap := hcap 2
  have h3 : (runOps (newLRUCache capacity) ops).q3.length
      ≤ (runOps (newLRUCache capacity) ops).cap := hcap 3
  have hc : (runOps (newLRUCache capacity) ops).cap = (capacity + 3) / 4 := hcapf
  unfold totalItems
  omega

open Bam in
/-- Witness for C6 (amended): the bound applied after the overfill
sequence on capacity 5. -/
theorem c6_witness :
    totalItems (runOps (newLRUCache 5) opsOverfill) ≤ 4 * ((5 + 3) / 4) :=
  c6_total_bounded 5 opsOverfill

open Bam in
/-- C7.  The claim has key 1 surviving `Set 1, 2, 3, 4` on a cache with
per-queue capacity 1 and climbing on four `Get(1)` calls.  In the source,
once queue 0 is full each further `Set` reuses queue 0's tail node, so the
`Set` of key 2 already evicts key 1: the very first `Get(1)` misses. -/
theorem c7_counterexample :
    (lruGet (runOps (newLRUCache 4) setsFour) 1).1 = none := by
  decide

open Bam in
/-- C7 (amended).  On `newLRUCache 4` (per-queue capacity 1), after
`Set` of keys 1, 2, 3, 4 in order only the most recent key 4 remains, in
queue 0; four successive `Get(4)` calls all hit, climbing key 4 through
queues 1, 2 and 3, and a subsequent `Get(4)` keeps it at the front of
queue 3. -/
theorem c7_last_key_climbs :
    runOps (newLRUCache 4) setsFour = ⟨1, [⟨0, 4, []⟩], [], [], []⟩ ∧
    (lruGet (runOps (newLRUCache 4) setsFour) 4).1 = some [] ∧
    runOps (newLRUCache 4) (setsFour ++ [CacheOp.get 4]) =
      ⟨1, [], [⟨1, 4, []⟩], [], []⟩ ∧
    (lruGet (runOps (newLRUCache 4) (setsFour ++ [CacheOp.get 4])) 4).1 = some [] ∧
    runOps (newLRUCache 4) (setsFour ++ [CacheOp.get 4, CacheOp.get 4]) =
      ⟨1, [], [], [⟨2, 4, []⟩], []⟩ ∧
    (lruGet (runOps (newLRUCache 4)
      (setsFour ++ [CacheOp.get 4, CacheOp.get 4])) 4).1 = some [] ∧
    runOps (newLRUCache 4) (setsFour ++ [CacheOp.get 4, CacheOp.get 4, CacheOp.get 4]) =
      ⟨1, [], [], [], [⟨3, 4, []⟩]⟩ ∧
    (lruGet (runOps (newLRUCache 4)
      (setsFour ++ [CacheOp.get 4, CacheOp.get 4, CacheOp.get 4])) 4).1 = some [] ∧
    runOps (newLRUCache 4)
      (setsFour ++ [CacheOp.get 4, CacheOp.get 4, CacheOp.get 4, CacheOp.get 4]) =
      ⟨1, [], [], [], [⟨3, 4, []⟩]⟩ := by
  refine ⟨?_, ?_, ?_, ?_, ?_, ?_, ?_, ?_, ?_⟩ <;> decide

open Bam in
/-- C10.  With the index present, a valid `refID` and an in-range query,
a leaf bin absent from `index.Refs[refID].Bins` makes `GetMap` return an
empty result with no error and no panic: the Go map read yields the nil
chunk slice, so the chunk walk visits nothing. -/
theorem c10_missing_bin_empty (blocks : Nat → List Nat) (advance : Nat → Nat)
    (refs : List Reference) (idx : Index) (als : List BamAlignment) (refID : Int)
    (beginPos endPos : Nat) (ref : Reference) (iref : IndexReference)
    (h0 : ¬ refID < 0) (h1 : refs[refID.toNat]? = some ref)
    (h2 : ¬ (ref.Length < beginPos ∨ ref.Length < endPos))
    (h3 : idx.Refs[refID.toNat]? = some iref)
    (h4 : iref.Bins.find? (fun p => p.1 == getBin beginPos endPos) = none) :
    GetMap blocks advance refs (some idx) als refID beginPos endPos = some [] := by
  unfold GetMap
  rw [if_neg h0, h1]
  dsimp only
  rw [if_neg h2, h3]
  dsimp only
  unfold binsLookup
  rw [h4]
  rfl

open Bam in
/-- Witness for C10: a one-reference index whose bin table is empty. -/
theorem c10_witness :
    GetMap (fun _ => []) (fun _ => 0) [{ Name := [], Length := 1000 }]
      (some { Refs := [emptyIndexRef] }) [] 0 10 20 = some [] :=
  c10_missing_bin_empty (fun _ => []) (fun _ => 0) [{ Name := [], Length := 1000 }]
    { Refs := [emptyIndexRef] } [] 0 10 20 { Name := [], Length := 1000 } emptyIndexRef
    (by decide) rfl (by simp) rfl rfl

open Bam in
/-- Witness for C9: the packed bytes `0x12 0x40` (spec §8 scenario 4)
decode to `"ACG="` and the trailing `'='` is trimmed. -/
theorem c9_witness :
    ([0x12, 0x40] : List Nat) ≠ [] ∧
      (nibbleChars [0x12, 0x40]).length = 2 * 2 ∧
      UnpackSequence [0x12, 0x40] =
        some (if (nibbleChars [0x12, 0x40]).getLastD ' ' = '='
          then (nibbleChars [0x12, 0x40]).dropLast else nibbleChars [0x12, 0x40]) :=
  ⟨by decide, (c9_unpackSequence_empty_is_panic.2.2 [0x12, 0x40] (by decide)).1,
    (c9_unpackSequence_empty_is_panic.2.2 [0x12, 0x40] (by decide)).2⟩
